import Mathlib

/-!
Verification of the argument-mapper core: a shallow embedding of the data
model and the derivation algorithms (invalidation propagation, spanning-tree
projection, leaning adjustment, history management, rating mutation), with
theorems settling the specification claims.

The JavaScript source is embedded as follows: JS objects become structures,
`null`/missing fields become `Option`, JS `Set`s become `List`s compared by
membership, JS numbers in the leaning adjuster become `ℚ`, and the BFS
worklist loops become fuel-bounded iterations whose fuel provably exceeds
the number of possible additions (each BFS addition is the `from` endpoint
of some edge, so `edges.length + 1` rounds of saturation always reach the
fixed point).
-/

namespace ArgMapper

/-- Rating values: JS `"up"` / `"down"`; the JS `null` rating is `Option.none`
at the use sites. -/
inductive Rating
  | up
  | down
deriving DecidableEq, Repr

/-- `metadata.agreed_by`: `{ speaker, text? }`. -/
structure AgreedBy where
  speaker : String
  text : Option String
deriving DecidableEq, Repr

/-- Node metadata (`confidence`, `tags`, `tactics`, `agreed_by`,
`contradicts`, `moves_goalposts_from`); absent JS fields are `none`/`[]`. -/
structure Metadata where
  confidence : Option String
  tags : List String
  tactics : List String
  agreed_by : Option AgreedBy
  contradicts : Option String
  moves_goalposts_from : Option String
deriving DecidableEq, Repr

/-- One argument node. `type` is the node kind string
(claim / premise / evidence / objection / rebuttal / clarification). -/
structure Node where
  id : String
  type : String
  content : String
  speaker : String
  rating : Option Rating
  metadata : Metadata
deriving DecidableEq, Repr

/-- One support/attack edge; `from` and `to` are Lean keywords so the field
names are quoted. -/
structure Edge where
  id : String
  «from» : String
  «to» : String
  relationship : String
deriving DecidableEq, Repr

/-- The inner `argument_map` object: title, description, node and edge lists. -/
structure InnerMap where
  title : String
  description : String
  nodes : List Node
  edges : List Edge
deriving DecidableEq, Repr

/-- The wrapper `{ argument_map: ... }` that the store and mutations use. -/
structure Wrapper where
  argument_map : InnerMap
deriving DecidableEq, Repr

/-- `moderator_analysis` payload: `leaning` plus the style/reason strings.
A missing `leaning` is `none` (JS `?? 0` supplies the default). -/
structure Analysis where
  leaning : Option ℚ
  leaning_reason : Option String
  user_a_style : Option String
  user_b_style : Option String
deriving DecidableEq, Repr

/-- `EMPTY_MAP` from App.jsx: the initial empty wrapper. -/
def EMPTY_MAP : Wrapper :=
  ⟨{ title := "", description := "", nodes := [], edges := [] }⟩

section Graph

/-- The predecessor set of a target id: the `from` endpoints of edges whose
`to` endpoint is the target (App.jsx `predecessorMap`). -/
def predsOf (edges : List Edge) (target : String) : List String :=
  (edges.filter (fun e => e.«to» = target)).map (fun e => e.«from»)

/-- One saturation round of the backward BFS of App.jsx `bfsBack`: add every
not-yet-visited predecessor of a visited id. -/
def bfsStep (edges : List Edge) (visited : List String) : List String :=
  visited ++ ((visited.flatMap (predsOf edges)).filter (fun p => !(visited.contains p))).dedup

/-- App.jsx `bfsBack(startIds)`: the backward-reachability closure of the
start set. The JS worklist loop is embedded as `edges.length + 1` saturation
rounds: every id the loop ever adds is the `from` endpoint of some edge, so
at most `edges.length` distinct ids can be added and the iteration provably
reaches the BFS fixed point (theorem `bfsBack_mem`). -/
def bfsBack (edges : List Edge) (start : List String) : List String :=
  (bfsStep edges)^[edges.length + 1] start.dedup

/-- `Reaches edges x y`: there is a forward chain of edges from `x` to `y`
(so `x` is in the backward closure of `{y}`) — the spec's
"backward closure" relation, `predecessorsOf` iterated. -/
inductive Reaches (edges : List Edge) : String → String → Prop
  | refl (x : String) : Reaches edges x x
  | head {x z : String} (e : Edge) (he : e ∈ edges) (hf : e.«from» = x)
      (h : Reaches edges e.«to» z) : Reaches edges x z

end Graph

section FadedInfo

/-- Ids of agreed nodes (`rating === "up"`), from App.jsx `fadedInfo`. -/
def agreedIds (m : InnerMap) : List String :=
  (m.nodes.filter (fun n => n.rating = some Rating.up)).map (fun n => n.id)

/-- Ids of retracted nodes (`rating === "down"`), from App.jsx `fadedInfo`. -/
def downIds (m : InnerMap) : List String :=
  (m.nodes.filter (fun n => n.rating = some Rating.down)).map (fun n => n.id)

/-- App.jsx: `fadedNodeIds = new Set([...bfsBack(agreedIds), ...bfsBack(downIds)])`
(a JS `Set`, embedded as a list compared by membership). -/
def fadedNodeIds (m : InnerMap) : List String :=
  bfsBack m.edges (agreedIds m) ++ bfsBack m.edges (downIds m)

/-- App.jsx contradiction borders: for every node with `metadata.contradicts`
set, both the flagging node's id and the contradicted id are added. -/
def contradictionBorderIds (m : InnerMap) : List String :=
  m.nodes.flatMap (fun n =>
    match n.metadata.contradicts with
    | some t => [n.id, t]
    | none => [])

/-- App.jsx walkback borders: the analogue for `moves_goalposts_from`. -/
def walkbackBorderIds (m : InnerMap) : List String :=
  m.nodes.flatMap (fun n =>
    match n.metadata.moves_goalposts_from with
    | some t => [n.id, t]
    | none => [])

/-- App.jsx: ids referenced by any node's `metadata.contradicts`. -/
def contradictionTargetIds (m : InnerMap) : List String :=
  m.nodes.filterMap (fun n => n.metadata.contradicts)

/-- App.jsx: ids referenced by any node's `metadata.moves_goalposts_from`. -/
def walkbackTargetIds (m : InnerMap) : List String :=
  m.nodes.filterMap (fun n => n.metadata.moves_goalposts_from)

/-- App.jsx: `contradictionFadedIds = bfsBack(contradictionTargetIds)` with all
border ids added afterwards. -/
def contradictionFadedIds (m : InnerMap) : List String :=
  bfsBack m.edges (contradictionTargetIds m) ++ contradictionBorderIds m

/-- App.jsx: `walkbackFadedIds = bfsBack(walkbackTargetIds)` with all border
ids added afterwards. -/
def walkbackFadedIds (m : InnerMap) : List String :=
  bfsBack m.edges (walkbackTargetIds m) ++ walkbackBorderIds m

end FadedInfo

section SpecClaimC1

/-- Spec-side definition (claim C1's wording, for refinement comparison):
ids of "flagging nodes" — nodes with `contradicts` or `moves_goalposts_from`
set. -/
def flaggingNodeIds (m : InnerMap) : List String :=
  (m.nodes.filter (fun n =>
    n.metadata.contradicts.isSome || n.metadata.moves_goalposts_from.isSome)).map
      (fun n => n.id)

/-- Spec-side definition (claim C1's wording): the union of contradiction and
walkback targets. -/
def targetNodeIds (m : InnerMap) : List String :=
  contradictionTargetIds m ++ walkbackTargetIds m

/-- Spec-side definition (claim C1's wording, for refinement comparison):
`protectedSet = backwardClosure(flaggingNodes \ targetNodes) ∪ flaggingNodes
∪ {direct targets of flaggingNodes}`. -/
def claimedProtectedSet (m : InnerMap) : List String :=
  bfsBack m.edges
      ((flaggingNodeIds m).filter (fun i => !((targetNodeIds m).contains i)))
    ++ flaggingNodeIds m
    ++ (m.edges.filter (fun e => (flaggingNodeIds m).contains e.«from»)).map
        (fun e => e.«to»)

/-- Spec-side definition (claim C1's wording, for refinement comparison): the
claimed faded set, `backwardClosure(agreed ∪ retracted) \ protectedSet`. -/
def claimedFadedSet (m : InnerMap) : List String :=
  (bfsBack m.edges (agreedIds m ++ downIds m)).filter
    (fun i => !((claimedProtectedSet m).contains i))

end SpecClaimC1

section LegacyProtection

/-- The combined contradiction/walkback target set of the legacy single-set
propagation (part_006 App.jsx and the first ArgumentMap.jsx revision): for
each node, `contradicts` then `moves_goalposts_from` is added. -/
def combinedTargetIds (m : InnerMap) : List String :=
  m.nodes.flatMap (fun n =>
    n.metadata.contradicts.toList ++ n.metadata.moves_goalposts_from.toList)

/-- JS `Set.add`: append the id unless already present. -/
def addId (acc : List String) (i : String) : List String :=
  if acc.contains i then acc else acc ++ [i]

/-- The legacy protection BFS (part_006 App.jsx `protectQueue` loop): a
worklist BFS over predecessors whose visited set is the shared `protectedIds`
set, so already-protected ids act as walls that are not traversed. The JS
`while` loop is embedded with a fuel bound on worklist pops; callers pass
ample fuel (every pop beyond the initial queue corresponds to a distinct
added id, itself the `from` endpoint of some edge). -/
def bfsWalled (edges : List Edge) : Nat → List String → List String → List String
  | 0, visited, _ => visited
  | _ + 1, visited, [] => visited
  | fuel + 1, visited, c :: rest =>
    let fresh := ((predsOf edges c).filter (fun p => !(visited.contains p))).dedup
    bfsWalled edges fuel (visited ++ fresh) (rest ++ fresh)

/-- One iteration of the legacy protection loop (part_006 App.jsx, lines
624–649) for a single node: if it is a flagging node, add its id; BFS-protect
its predecessors unless the node is itself a combined target (the
mutual-contradiction exception); and always add its direct edge targets. -/
def protectStep (edges : List Edge) (fuel : Nat) (targets : List String)
    (acc : List String) (node : Node) : List String :=
  if node.metadata.contradicts.isSome || node.metadata.moves_goalposts_from.isSome then
    let acc1 := addId acc node.id
    let acc2 :=
      if !(targets.contains node.id) then bfsWalled edges fuel acc1 [node.id]
      else acc1
    (edges.filter (fun e => e.«from» = node.id)).foldl
      (fun a e => addId a e.«to») acc2
  else acc

/-- The legacy `protectedIds` set (part_006 App.jsx): fold the protection step
over all nodes with a shared accumulator. -/
def protectedIdsLegacy (m : InnerMap) : List String :=
  m.nodes.foldl
    (protectStep m.edges (m.edges.length + m.nodes.length + 1) (combinedTargetIds m))
    []

/-- The protected node set of the first ArgumentMap.jsx revision (lines
308–318): `flaggingNodes ∪ predecessors(flaggingNodes \ combinedTargets) ∪
outgoers(flaggingNodes)`; cytoscape `.predecessors()` is the full backward
closure. -/
def protectedNodesAM (m : InnerMap) : List String :=
  flaggingNodeIds m
    ++ bfsBack m.edges
        ((flaggingNodeIds m).filter (fun i => !((combinedTargetIds m).contains i)))
    ++ (m.edges.filter (fun e => (flaggingNodeIds m).contains e.«from»)).map
        (fun e => e.«to»)

end LegacyProtection

section History

/-- The history reducer state: snapshot list plus current index. -/
structure HistoryState (α : Type) where
  entries : List α
  index : Nat
deriving DecidableEq, Repr

/-- History actions of App.jsx `historyReducer`. -/
inductive HistoryAction (α : Type)
  | push (entry : α)
  | undo
  | redo

/-- App.jsx `historyReducer`: `push` trims the redo branch
(`entries.slice(0, index + 1)`), appends, and advances the index; `undo` and
`redo` move the index within bounds and are otherwise no-ops. -/
def historyReducer {α : Type} (state : HistoryState α) :
    HistoryAction α → HistoryState α
  | .push e =>
      { entries := state.entries.take (state.index + 1) ++ [e],
        index := state.index + 1 }
  | .undo =>
      if state.index > 0 then { state with index := state.index - 1 } else state
  | .redo =>
      if state.index < state.entries.length - 1 then
        { state with index := state.index + 1 }
      else state

/-- A history entry: `{ map, analysis }`. -/
structure Snapshot where
  map : Wrapper
  analysis : Option Analysis
deriving DecidableEq, Repr

/-- The initial reducer state of App.jsx:
`{ entries: [{ map: EMPTY_MAP, analysis: null }], index: 0 }`. -/
def initialHistory : HistoryState Snapshot :=
  ⟨[⟨EMPTY_MAP, none⟩], 0⟩

/-- `histEntries[histIndex]`, the displayed snapshot (in-bounds by the
reducer invariant; the default is never reached from the initial state). -/
def currentEntry (h : HistoryState Snapshot) : Snapshot :=
  h.entries.getD h.index ⟨EMPTY_MAP, none⟩

end History

section Rate

/-- claude.js `rateNode`: toggle a thumbs rating on one node — clicking the
same rating again clears it (`current === rating ? null : rating`). -/
def rateNode (currentMap : Wrapper) (nodeId : String) (rating : Rating) :
    Wrapper :=
  let inner := currentMap.argument_map
  let updatedNodes := inner.nodes.map (fun node =>
    if node.id = nodeId then
      { node with
        rating := if node.rating = some rating then none else some rating }
    else node)
  ⟨{ inner with nodes := updatedNodes }⟩

/-- The agreed-by pass of App.jsx `handleRate`, applied to the `rateNode`
result: on the rated node, a post-toggle rating of `"up"` sets
`metadata.agreed_by = { speaker: currentSpeaker }`, anything else removes
`agreed_by`. -/
def agreedByPass (nodes : List Node) (nodeId : String)
    (currentSpeaker : String) : List Node :=
  nodes.map (fun node =>
    if node.id ≠ nodeId then node
    else if node.rating = some Rating.up then
      { node with
        metadata := { node.metadata with
          agreed_by := some ⟨currentSpeaker, none⟩ } }
    else
      { node with metadata := { node.metadata with agreed_by := none } })

/-- The map produced by App.jsx `handleRate` before it is pushed:
`rateNode` followed by the agreed-by pass. -/
def handleRateMap (m : Wrapper) (nodeId : String) (rating : Rating)
    (currentSpeaker : String) : Wrapper :=
  let updatedMap := rateNode m nodeId rating
  ⟨{ updatedMap.argument_map with
    nodes := agreedByPass updatedMap.argument_map.nodes nodeId currentSpeaker }⟩

/-- App.jsx `handleRate` at the engine level: compute the rated map and push
one history entry `{ map, analysis: moderatorAnalysis }` (the analysis of the
displayed snapshot, unchanged). -/
def handleRate (h : HistoryState Snapshot) (nodeId : String) (rating : Rating)
    (currentSpeaker : String) : HistoryState Snapshot :=
  historyReducer h
    (.push ⟨handleRateMap (currentEntry h).map nodeId rating currentSpeaker,
            (currentEntry h).analysis⟩)

end Rate

section Analysis

/-- App.jsx `sanitizeAnalysis` string fix: replace legacy `"User A"` /
`"User B"` speaker names. -/
def fixSpeakerText (s : String) : String :=
  (s.replace "User A" "Blue").replace "User B" "Green"

/-- App.jsx `sanitizeAnalysis`: `null` passes through; otherwise the leaning
is negated (`-(analysis.leaning ?? 0)`, missing treated as `0`) and the text
fields are run through the speaker-name fix. -/
def sanitizeAnalysis : Option Analysis → Option Analysis
  | none => none
  | some a =>
      some { leaning := some (-(a.leaning.getD 0)),
             leaning_reason := a.leaning_reason.map fixSpeakerText,
             user_a_style := a.user_a_style.map fixSpeakerText,
             user_b_style := a.user_b_style.map fixSpeakerText }

/-- App.jsx `effectiveAnalysis`:
`allInactiveIds = fadedNodeIds ∪ contradictionFadedIds ∪ walkbackFadedIds`. -/
def allInactiveIds (m : InnerMap) : List String :=
  fadedNodeIds m ++ contradictionFadedIds m ++ walkbackFadedIds m

/-- `totalA` / `totalB`: the number of a speaker's nodes. -/
def totalFor (m : InnerMap) (speaker : String) : Nat :=
  (m.nodes.filter (fun n => n.speaker = speaker)).length

/-- `activeA` / `activeB`: the number of a speaker's nodes not in
`allInactiveIds`. -/
def activeFor (m : InnerMap) (speaker : String) : Nat :=
  (m.nodes.filter (fun n =>
    n.speaker = speaker ∧ ¬ (allInactiveIds m).contains n.id = true)).length

/-- `effectivenessA` / `effectivenessB`:
`total > 0 ? active / total : 1` (JS floats embedded as `ℚ`). -/
def effectivenessFor (m : InnerMap) (speaker : String) : ℚ :=
  if 0 < totalFor m speaker then
    (activeFor m speaker : ℚ) / (totalFor m speaker : ℚ)
  else 1

/-- `adjustment = (effectivenessB - effectivenessA) * 0.7`
(Blue is side A, Green is side B). -/
def adjustment (m : InnerMap) : ℚ :=
  (effectivenessFor m "Green" - effectivenessFor m "Blue") * (7 / 10)

/-- `adjustedLeaning = Math.max(-1, Math.min(1, leaning + adjustment))`. -/
def adjustedLeaning (m : InnerMap) (baseline : ℚ) : ℚ :=
  max (-1) (min 1 (baseline + adjustment m))

/-- Spec-side definition (claim C5's wording, for refinement comparison):
`effectiveness(S)` is the fraction of `S`'s nodes not in the inactive union,
defined as `1` when `S` has zero nodes. -/
def specEffectiveness (m : InnerMap) (speaker : String) : ℚ :=
  let own := m.nodes.filter (fun n => n.speaker = speaker)
  if own.length = 0 then 1
  else ((own.filter (fun n => !((allInactiveIds m).contains n.id))).length : ℚ)
    / (own.length : ℚ)

end Analysis

section Submit

/-- The inner object of a parsed external payload; each collection may be
missing (`none` embeds a missing JS field). -/
structure RawInner where
  title : Option String
  description : Option String
  nodes : Option (List Node)
  edges : Option (List Edge)
deriving DecidableEq, Repr

/-- A parsed external replacement payload as `handleSubmit` receives it from
`updateArgumentMap` (which only JSON-parses the model response and performs
no shape validation). -/
structure Payload where
  argument_map : Option RawInner
  moderator_analysis : Option Analysis
deriving DecidableEq, Repr

/-- A history entry holding the raw committed payload, as App.jsx stores it
(`pushHistory(updatedMap, sanitizeAnalysis(updatedMap.moderator_analysis))`
stores the parsed object itself). -/
structure RawEntry where
  map : Payload
  analysis : Option Analysis
deriving DecidableEq, Repr

/-- The commit step of App.jsx `handleSubmit` after a response parses: the
only shape-dependent reads before the push are
`updatedMap.argument_map.nodes.filter(...)` (for `originalTexts` tracking), so
a payload with a missing `argument_map` or missing `nodes` throws a caught
`TypeError` (error surfaced, nothing pushed, `Bool` result `true`); any other
payload is pushed unvalidated (`Bool` result `false`). -/
def handleSubmitCommit (h : HistoryState RawEntry) (payload : Payload) :
    HistoryState RawEntry × Bool :=
  match payload.argument_map with
  | none => (h, true)
  | some inner =>
    match inner.nodes with
    | none => (h, true)
    | some _ =>
        (historyReducer h
          (.push ⟨payload, sanitizeAnalysis payload.moderator_analysis⟩),
         false)

end Submit

section TreeView

mutual

/-- One placed entry of the spanning-tree projection
(`{ node, crossLinkCount, children }`); the children list is the mutually
inductive `TreeList` so that recursion over the tree is structural. -/
inductive TreeItem
  | mk (node : Node) (crossLinkCount : Nat) (children : TreeList)

/-- A list of placed entries (isomorphic to `List TreeItem`). -/
inductive TreeList
  | nil
  | cons (head : TreeItem) (tail : TreeList)

end

def TreeItem.node : TreeItem → Node
  | .mk n _ _ => n

def TreeItem.crossLinkCount : TreeItem → Nat
  | .mk _ c _ => c

def TreeItem.children : TreeItem → TreeList
  | .mk _ _ cs => cs

/-- `children.push(child)` guarded by `if (child)`: prependless embedding of
the JS loop result, consing a non-`null` built child onto the rest. -/
def optCons : Option TreeItem → TreeList → TreeList
  | none, l => l
  | some t, l => .cons t l

mutual

/-- MapTreeView `countDescendants`: the total number of descendants below a
children list (`count += 1 + countDescendants(child.children)`). -/
def countDescendants : TreeList → Nat
  | .nil => 0
  | .cons t rest => (1 + countDescItem t) + countDescendants rest

/-- `1 + countDescendants(child.children)` without the leading 1: the
descendant count below one item. -/
def countDescItem : TreeItem → Nat
  | .mk _ _ children => countDescendants children

end

/-- `childMap.get(nodeId)`: the `from` endpoints of edges targeting the id,
in edge order. -/
def childIdsOf (edges : List Edge) (nodeId : String) : List String :=
  (edges.filter (fun e => e.«to» = nodeId)).map (fun e => e.«from»)

/-- `parentEdges.get(nodeId)`: the `to` endpoints of edges leaving the id. -/
def parentIdsOf (edges : List Edge) (nodeId : String) : List String :=
  (edges.filter (fun e => e.«from» = nodeId)).map (fun e => e.«to»)

mutual

/-- MapTreeView `buildNode(nodeId, treeParentId, placed)`: place a node once
(recording its cross-link count: parents other than the tree parent), then
recursively place its unplaced children; returns the built item (or `null`)
and the updated `placed` set. The JS recursion terminates because every
recursive call first adds an unplaced id to `placed`; the embedding instead
decrements a fuel counter on every call, and callers pass fuel exceeding the
longest possible call chain (one step per placement plus one per sibling
position, at most `nodes.length + edges.length`), so the cutoff branches are
never reached with the fuel `buildTree` supplies. -/
def buildNode (nodes : List Node) (edges : List Edge) :
    Nat → String → Option String → List String → Option TreeItem × List String
  | 0, _, _, placed => (none, placed)
  | fuel + 1, nodeId, treeParentId, placed =>
    match nodes.find? (fun n => n.id = nodeId) with
    | none => (none, placed)
    | some node =>
      if placed.contains nodeId then (none, placed)
      else
        let placed1 := nodeId :: placed
        let cross :=
          ((parentIdsOf edges node.id).filter
            (fun p => !(some p == treeParentId))).length
        let res := buildChildren nodes edges fuel (childIdsOf edges nodeId)
          nodeId placed1
        (some (.mk node cross res.1), res.2)

/-- The `for (const { childId } of childMap.get(nodeId))` loop of
`buildNode`: build each child in order, threading `placed`, keeping the
non-`null` results. -/
def buildChildren (nodes : List Node) (edges : List Edge) :
    Nat → List String → String → List String → TreeList × List String
  | _, [], _, placed => (.nil, placed)
  | 0, _ :: _, _, placed => (.nil, placed)
  | fuel + 1, cid :: rest, parent, placed =>
    let r1 := buildNode nodes edges fuel cid (some parent) placed
    let r2 := buildChildren nodes edges fuel rest parent r1.2
    (optCons r1.1 r2.1, r2.2)

end

/-- The two placement sweeps of `buildTree`: call `buildNode` at top level
(`treeParentId = null`) for each id in order, collecting non-`null` trees and
threading `placed`. (The second JS sweep guards with `!placed.has(node.id)`;
`buildNode` performs the identical check itself, so the guard is absorbed.) -/
def buildForest (nodes : List Node) (edges : List Edge) (fuel : Nat) :
    List String → List String → List TreeItem × List String
  | [], placed => ([], placed)
  | i :: rest, placed =>
    let r1 := buildNode nodes edges fuel i none placed
    let r2 := buildForest nodes edges fuel rest r1.2
    (r1.1.toList ++ r2.1, r2.2)

/-- MapTreeView `buildTree(nodes, edges)`: roots are the nodes that are never
an edge source; place each root's subtree depth-first, then sweep the
remaining (unreachable) nodes as their own roots. The fuel exceeds the
longest possible recursion chain (one step per placement plus one per
sibling position), so the cutoff branches are never reached. -/
def buildTree (nodes : List Node) (edges : List Edge) : List TreeItem :=
  let isSrc := edges.map (fun e => e.«from»)
  let roots := nodes.filter (fun n => !(isSrc.contains n.id))
  let fuel := nodes.length + edges.length + 1
  let r1 := buildForest nodes edges fuel (roots.map (fun n => n.id)) []
  let r2 := buildForest nodes edges fuel (nodes.map (fun n => n.id)) r1.2
  r1.1 ++ r2.1

end TreeView

section Helpers

/-- The per-node effect of App.jsx `handleRate` (the `rateNode` toggle
composed with the agreed-by pass), used to state frame conditions. -/
def ratePerNode (nodeId : String) (rating : Rating) (currentSpeaker : String)
    (node : Node) : Node :=
  if node.id = nodeId then
    let n1 : Node :=
      { node with
        rating := if node.rating = some rating then none else some rating }
    if n1.rating = some Rating.up then
      { n1 with
        metadata := { n1.metadata with
          agreed_by := some ⟨currentSpeaker, none⟩ } }
    else
      { n1 with metadata := { n1.metadata with agreed_by := none } }
  else node

mutual

/-- All node ids below a children list, in placement order. -/
def treeIdsList : TreeList → List String
  | .nil => []
  | .cons t ts => treeIdsItem t ++ treeIdsList ts

/-- All node ids of one placed item: its own id then its subtree's ids. -/
def treeIdsItem : TreeItem → List String
  | .mk node _ children => node.id :: treeIdsList children

end

/-- Ids of an optional placement result. -/
def treeIdsOpt : Option TreeItem → List String
  | none => []
  | some t => treeIdsItem t

/-- All node ids of a built forest (a plain list of top-level items). -/
def forestIds (ts : List TreeItem) : List String :=
  ts.flatMap treeIdsItem

/-- Empty metadata record (all JS fields absent). -/
def noMeta : Metadata :=
  { confidence := none, tags := [], tactics := [], agreed_by := none,
    contradicts := none, moves_goalposts_from := none }

/-- A plain node fixture. -/
def mkNode (i ty sp : String) (r : Option Rating) (md : Metadata) : Node :=
  { id := i, type := ty, content := i, speaker := sp, rating := r,
    metadata := md }

/-- Claim C1 counterexample input: a single flagging node `F`
(`contradicts = "X"`) that has been rated up, with its target `X` and no
edges. -/
def cexC1 : InnerMap :=
  { title := "", description := "",
    nodes := [mkNode "F" "claim" "Blue" (some Rating.up)
                { noMeta with contradicts := some "X" },
              mkNode "X" "claim" "Green" none noMeta],
    edges := [] }

/-- Claim C2 fixture: mutual contradiction `A1 ↔ B1` with supporters
`A2 → A1`, `B2 → B1`. -/
def fixC2 : InnerMap :=
  { title := "", description := "",
    nodes := [mkNode "A1" "claim" "Blue" none
                { noMeta with contradicts := some "B1" },
              mkNode "B1" "claim" "Green" none
                { noMeta with contradicts := some "A1" },
              mkNode "A2" "premise" "Blue" none noMeta,
              mkNode "B2" "premise" "Green" none noMeta],
    edges := [⟨"e1", "A2", "A1", "supports"⟩, ⟨"e2", "B2", "B1", "supports"⟩] }

/-- An initial raw-entry history mirroring App.jsx's initial state, for the
submit-path fixtures. -/
def initialRawHistory : HistoryState RawEntry :=
  ⟨[⟨⟨some ⟨some "", some "", some [], some []⟩, none⟩, none⟩], 0⟩

/-- Claim C3 counterexample payload: node and edge collections are present
but the edge references the unknown node id `"ghost"` (a dangling
reference), and the node list repeats one id (duplicate ids). -/
def payloadBad : Payload :=
  ⟨some ⟨some "t", some "d",
        some [mkNode "n1" "claim" "Blue" none noMeta,
              mkNode "n1" "claim" "Blue" none noMeta],
        some [⟨"e9", "ghost", "n1", "supports"⟩]⟩,
   none⟩

/-- Claim C7 counterexample map: node `n1` is already rated up. -/
def cexC7 : Wrapper :=
  ⟨{ title := "", description := "",
     nodes := [mkNode "n1" "claim" "Green" (some Rating.up) noMeta],
     edges := [] }⟩

/-- Claim C6 witness nodes: a two-node cycle, so neither node is a root and
both are placed by the final unreachable-node sweep. -/
def fixC6nodes : List Node :=
  [mkNode "a" "claim" "Blue" none noMeta, mkNode "b" "claim" "Green" none noMeta]

/-- Claim C6 witness edges: `a → b → a`. -/
def fixC6edges : List Edge :=
  [⟨"e1", "a", "b", "supports"⟩, ⟨"e2", "b", "a", "supports"⟩]

end Helpers

section GraphLemmas

theorem reaches_trans {edges : List Edge} {x y z : String}
    (hxy : Reaches edges x y) (hyz : Reaches edges y z) : Reaches edges x z := by
  induction hxy with
  | refl => exact hyz
  | head e he hf _ ih => exact Reaches.head e he hf (ih hyz)

theorem mem_bfsStep_self {edges : List Edge} {v : List String} {x : String}
    (h : x ∈ v) : x ∈ bfsStep edges v := by
  simp only [bfsStep, List.mem_append]
  exact Or.inl h

theorem mem_bfsStep_iff {edges : List Edge} {v : List String} {x : String} :
    x ∈ bfsStep edges v ↔ x ∈ v ∨ ∃ c ∈ v, x ∈ predsOf edges c := by
  constructor
  · intro h
    simp only [bfsStep, List.mem_append, List.mem_dedup, List.mem_filter,
      List.mem_flatMap] at h
    rcases h with h | ⟨⟨c, hc, hx⟩, _⟩
    · exact Or.inl h
    · exact Or.inr ⟨c, hc, hx⟩
  · intro h
    rcases h with h | ⟨c, hc, hx⟩
    · exact mem_bfsStep_self h
    · by_cases hv : x ∈ v
      · exact mem_bfsStep_self hv
      · refine List.mem_append_right _ ?_
        simp only [List.mem_dedup, List.mem_filter, List.mem_flatMap]
        refine ⟨⟨c, hc, hx⟩, ?_⟩
        simp [hv]

theorem bfsStep_nodup {edges : List Edge} {v : List String} (h : v.Nodup) :
    (bfsStep edges v).Nodup := by
  unfold bfsStep
  refine List.Nodup.append h (List.nodup_dedup _) ?_
  intro x hx hx'
  simp only [List.mem_dedup, List.mem_filter] at hx'
  have := hx'.2
  simp at this
  exact this hx

/-- A fixed point of `bfsStep` is closed under predecessors. -/
theorem fixpoint_closed {edges : List Edge} {v : List String}
    (hfix : bfsStep edges v = v) {c p : String} (hc : c ∈ v)
    (hp : p ∈ predsOf edges c) : p ∈ v := by
  have : p ∈ bfsStep edges v := mem_bfsStep_iff.mpr (Or.inr ⟨c, hc, hp⟩)
  rwa [hfix] at this

theorem bfsStep_growth {edges : List Edge} {v : List String}
    (h : bfsStep edges v ≠ v) : v.length < (bfsStep edges v).length := by
  unfold bfsStep at h ⊢
  rcases h' : ((v.flatMap (predsOf edges)).filter (fun p => !(v.contains p))).dedup
    with _ | ⟨a, l⟩
  · rw [h'] at h
    simp at h
  · simp

theorem bfsStep_subset_of_subset {edges : List Edge} {v : List String}
    {U : List String} (hU : ∀ e ∈ edges, e.«from» ∈ U) (hv : ∀ x ∈ v, x ∈ U) :
    ∀ x ∈ bfsStep edges v, x ∈ U := by
  intro x hx
  rcases mem_bfsStep_iff.mp hx with h | ⟨c, _, hp⟩
  · exact hv x h
  · simp only [predsOf, List.mem_map, List.mem_filter] at hp
    obtain ⟨e, ⟨he, _⟩, hfe⟩ := hp
    exact hfe ▸ hU e he

theorem iterate_mem_univ (edges : List Edge) (start : List String) :
    ∀ k, ∀ x ∈ (bfsStep edges)^[k] start.dedup,
      x ∈ start.dedup ++ edges.map (fun e => e.«from») := by
  intro k
  induction k with
  | zero =>
    intro x hx
    exact List.mem_append_left _ hx
  | succ n ih =>
    rw [Function.iterate_succ_apply']
    refine bfsStep_subset_of_subset ?_ ih
    intro e he
    refine List.mem_append_right _ ?_
    exact List.mem_map.mpr ⟨e, he, rfl⟩

theorem iterate_nodup (edges : List Edge) (start : List String) :
    ∀ k, ((bfsStep edges)^[k] start.dedup).Nodup := by
  intro k
  induction k with
  | zero => exact List.nodup_dedup _
  | succ n ih =>
    rw [Function.iterate_succ_apply']
    exact bfsStep_nodup ih

theorem iterate_length_le (edges : List Edge) (start : List String) (k : Nat) :
    ((bfsStep edges)^[k] start.dedup).length ≤
      start.dedup.length + edges.length := by
  have h1 : ((bfsStep edges)^[k] start.dedup).toFinset.card =
      ((bfsStep edges)^[k] start.dedup).length :=
    List.toFinset_card_of_nodup (iterate_nodup edges start k)
  have h2 : ((bfsStep edges)^[k] start.dedup).toFinset ⊆
      (start.dedup ++ edges.map (fun e => e.«from»)).toFinset := by
    intro x hx
    rw [List.mem_toFinset] at hx ⊢
    exact iterate_mem_univ edges start k x hx
  have h3 := Finset.card_le_card h2
  have h4 : (start.dedup ++ edges.map (fun e => e.«from»)).toFinset.card ≤
      (start.dedup ++ edges.map (fun e => e.«from»)).length := by
    rw [List.card_toFinset]
    exact List.Sublist.length_le
      (List.dedup_sublist (start.dedup ++ edges.map (fun e => e.«from»)))
  have h5 : (start.dedup ++ edges.map (fun e => e.«from»)).length =
      start.dedup.length + edges.length := by
    simp
  omega

/-- Iterating `bfsStep` `edges.length + 1` times from the deduplicated start
reaches a fixed point: each non-fixed round strictly grows a nodup list whose
length is bounded by `start.dedup.length + edges.length`. -/
theorem bfsBack_fix (edges : List Edge) (start : List String) :
    bfsStep edges (bfsBack edges start) = bfsBack edges start := by
  have key : ∃ k ≤ edges.length,
      bfsStep edges ((bfsStep edges)^[k] start.dedup) =
        (bfsStep edges)^[k] start.dedup := by
    by_contra hcon
    push_neg at hcon
    have grow : ∀ k, k ≤ edges.length + 1 →
        start.dedup.length + k ≤ ((bfsStep edges)^[k] start.dedup).length := by
      intro k
      induction k with
      | zero => simp
      | succ n ih =>
        intro hk
        have hn : n ≤ edges.length := by omega
        have hne := hcon n hn
        have hg := bfsStep_growth hne
        have ihn := ih (by omega)
        rw [Function.iterate_succ_apply']
        omega
    have h1 := grow (edges.length + 1) le_rfl
    have h2 := iterate_length_le edges start (edges.length + 1)
    omega
  obtain ⟨k, hk, hfix⟩ := key
  have stable : ∀ j, (bfsStep edges)^[k + j] start.dedup =
      (bfsStep edges)^[k] start.dedup := by
    intro j
    induction j with
    | zero => rfl
    | succ n ih =>
      have hadd : k + (n + 1) = (k + n) + 1 := by omega
      rw [hadd, Function.iterate_succ_apply', ih, hfix]
  have hk1 : k + (edges.length + 1 - k) = edges.length + 1 := by omega
  unfold bfsBack
  rw [← hk1, stable, hfix]

theorem start_sub_bfsBack (edges : List Edge) (start : List String) :
    ∀ x ∈ start, x ∈ bfsBack edges start := by
  intro x hx
  unfold bfsBack
  have : ∀ k, x ∈ (bfsStep edges)^[k] start.dedup := by
    intro k
    induction k with
    | zero => simpa using hx
    | succ n ih => rw [Function.iterate_succ_apply']; exact mem_bfsStep_self ih
  exact this _

/-- Soundness: everything in the BFS closure backward-reaches a start id. -/
theorem bfsBack_sound (edges : List Edge) (start : List String) :
    ∀ x ∈ bfsBack edges start, ∃ s ∈ start, Reaches edges x s := by
  unfold bfsBack
  suffices h : ∀ k, ∀ x ∈ (bfsStep edges)^[k] start.dedup, ∃ s ∈ start, Reaches edges x s by
    exact h _
  intro k
  induction k with
  | zero =>
    intro x hx
    exact ⟨x, by simpa using hx, Reaches.refl x⟩
  | succ n ih =>
    rw [Function.iterate_succ_apply']
    intro x hx
    rcases mem_bfsStep_iff.mp hx with h | ⟨c, hc, hp⟩
    · exact ih x h
    · obtain ⟨s, hs, hcs⟩ := ih c hc
      simp only [predsOf, List.mem_map, List.mem_filter, decide_eq_true_eq] at hp
      obtain ⟨e, ⟨he, hto⟩, hfe⟩ := hp
      exact ⟨s, hs, Reaches.head e he hfe (hto ▸ hcs)⟩

/-- Completeness: everything that backward-reaches a start id is in the BFS
closure. -/
theorem bfsBack_complete (edges : List Edge) (start : List String)
    {x s : String} (hs : s ∈ start) (hr : Reaches edges x s) :
    x ∈ bfsBack edges start := by
  induction hr with
  | refl y => exact start_sub_bfsBack edges start y hs
  | head e he hf h ih =>
    have hto : e.«to» ∈ bfsBack edges start := ih hs
    have hp : e.«from» ∈ predsOf edges e.«to» := by
      simp only [predsOf, List.mem_map, List.mem_filter, decide_eq_true_eq]
      exact ⟨e, ⟨he, rfl⟩, rfl⟩
    exact hf ▸ fixpoint_closed (bfsBack_fix edges start) hto hp

/-- The BFS closure is exactly backward reachability from the start set. -/
theorem bfsBack_mem (edges : List Edge) (start : List String) (x : String) :
    x ∈ bfsBack edges start ↔ ∃ s ∈ start, Reaches edges x s := by
  constructor
  · exact bfsBack_sound edges start x
  · rintro ⟨s, hs, hr⟩
    exact bfsBack_complete edges start hs hr

end GraphLemmas

section ClaimTheoremsBasic

/-- Claim C1, counterexample: on the input `cexC1` (a node `F` with
`contradicts = "X"` that has been rated up, no edges) the computed
`fadedNodeIds` contains `"F"`, but the claim's formula — the backward closure
of rated nodes minus the protected set — excludes `"F"` (as a flagging node
it is protected). The protection pass is never applied to `fadedNodeIds` in
the committed pipeline, so the claimed equality fails at this input. -/
theorem claim_C1_counterexample :
    "F" ∈ fadedNodeIds cexC1 ∧ "F" ∉ claimedFadedSet cexC1 := by
  decide

/-- Claim C1, amended: for every `(nodes, edges)` input, `fadedNodeIds`
equals the backward closure of the agreed (`rating = up`) and retracted
(`rating = down`) nodes, with no protected set subtracted (membership is
exactly backward reachability to a rated node). -/
theorem claim_C1_amended (m : InnerMap) (x : String) :
    x ∈ fadedNodeIds m ↔
      ∃ n ∈ m.nodes,
        (n.rating = some Rating.up ∨ n.rating = some Rating.down) ∧
          Reaches m.edges x n.id := by
  unfold fadedNodeIds
  rw [List.mem_append, bfsBack_mem, bfsBack_mem]
  constructor
  · rintro (⟨s, hs, hr⟩ | ⟨s, hs, hr⟩)
    · unfold agreedIds at hs
      simp only [List.mem_map, List.mem_filter, decide_eq_true_eq] at hs
      obtain ⟨n, ⟨hn, hup⟩, hid⟩ := hs
      exact ⟨n, hn, Or.inl hup, hid ▸ hr⟩
    · unfold downIds at hs
      simp only [List.mem_map, List.mem_filter, decide_eq_true_eq] at hs
      obtain ⟨n, ⟨hn, hdn⟩, hid⟩ := hs
      exact ⟨n, hn, Or.inr hdn, hid ▸ hr⟩
  · rintro ⟨n, hn, hud, hr⟩
    rcases hud with hup | hdn
    · refine Or.inl ⟨n.id, ?_, hr⟩
      unfold agreedIds
      simp only [List.mem_map, List.mem_filter, decide_eq_true_eq]
      exact ⟨n, ⟨hn, hup⟩, rfl⟩
    · refine Or.inr ⟨n.id, ?_, hr⟩
      unfold downIds
      simp only [List.mem_map, List.mem_filter, decide_eq_true_eq]
      exact ⟨n, ⟨hn, hdn⟩, rfl⟩

/-- Claim C2: on the mutual-contradiction fixture (`A1` contradicts `B1`,
`B1` contradicts `A1`, `A2` supports `A1`, `B2` supports `B1`), `A1` and
`B1` are both in `contradictionBorderIds`, and neither supporter `A2` nor
`B2` is in the protected set — checked against both protection
implementations (the part_006 `protectedIds` fold and the first
ArgumentMap.jsx revision's `protectedNodes`): the mutual-contradiction
exception strips predecessor protection from both flagging nodes. -/
theorem claim_C2 :
    ("A1" ∈ contradictionBorderIds fixC2 ∧ "B1" ∈ contradictionBorderIds fixC2)
    ∧ ("A2" ∉ protectedIdsLegacy fixC2 ∧ "B2" ∉ protectedIdsLegacy fixC2)
    ∧ ("A2" ∉ protectedNodesAM fixC2 ∧ "B2" ∉ protectedNodesAM fixC2) := by
  decide

/-- Claim C4: the history manager is linear — `push` discards all entries
after the current index, appends the new entry and advances the index; hence
from any initial entry `e0`, the sequence
`push e1; push e2; undo; push e3` leaves `entries = [e0, e1, e3]` with
`index = 2` (`e2` is discarded). -/
theorem claim_C4 :
    (∀ (α : Type) (s : HistoryState α) (e : α),
      historyReducer s (.push e) =
        ⟨s.entries.take (s.index + 1) ++ [e], s.index + 1⟩)
    ∧ (∀ (α : Type) (e0 e1 e2 e3 : α),
      [HistoryAction.push e1, HistoryAction.push e2, HistoryAction.undo,
        HistoryAction.push e3].foldl historyReducer ⟨[e0], 0⟩ =
          ⟨[e0, e1, e3], 2⟩) := by
  constructor
  · intro α s e
    rfl
  · intro α e0 e1 e2 e3
    rfl

end ClaimTheoremsBasic

section ClaimLeaning

theorem effectivenessFor_eq_spec (m : InnerMap) (speaker : String) :
    effectivenessFor m speaker = specEffectiveness m speaker := by
  unfold effectivenessFor specEffectiveness totalFor activeFor
  have hfilter :
      m.nodes.filter (fun n =>
        decide (n.speaker = speaker ∧ ¬ (allInactiveIds m).contains n.id = true)) =
      (m.nodes.filter (fun n => n.speaker = speaker)).filter
        (fun n => !((allInactiveIds m).contains n.id)) := by
    rw [List.filter_filter]
    apply List.filter_congr
    intro n _
    by_cases h1 : n.speaker = speaker <;>
      by_cases h2 : (allInactiveIds m).contains n.id = true <;>
        simp [h1, h2]
  rw [hfilter]
  rcases h : (m.nodes.filter (fun n => n.speaker = speaker)).length with _ | k
  · simp [h]
  · simp [h]

/-- Claim C5: for every map and baseline, the displayed leaning equals
`clamp(baseline + (effectiveness(Green) − effectiveness(Blue)) × 0.7, −1, 1)`
with the spec's effectiveness (fraction of a side's nodes outside
`fadedNodeIds ∪ contradictionFadedIds ∪ walkbackFadedIds`, `1` for an empty
side), and consequently it always lies in `[−1, 1]`. -/
theorem claim_C5 (m : InnerMap) (baseline : ℚ) :
    adjustedLeaning m baseline =
      max (-1) (min 1 (baseline +
        (specEffectiveness m "Green" - specEffectiveness m "Blue") * (7 / 10)))
    ∧ -1 ≤ adjustedLeaning m baseline ∧ adjustedLeaning m baseline ≤ 1 := by
  refine ⟨?_, ?_, ?_⟩
  · unfold adjustedLeaning adjustment
    rw [effectivenessFor_eq_spec, effectivenessFor_eq_spec]
  · exact le_max_left _ _
  · exact max_le (by norm_num) (min_le_left _ _)

/-- Claim C9: `sanitizeAnalysis` stores the additive inverse of the supplied
leaning (a missing leaning is treated as `0`), and the submit commit path
pushes exactly `sanitizeAnalysis` of the supplied `moderator_analysis` as the
entry's analysis — the baseline the Leaning Adjuster later reads is the
negation of what the external collaborator returned. -/
theorem claim_C9 :
    (∀ (a : Analysis), ∃ r, sanitizeAnalysis (some a) = some r ∧
        r.leaning = some (-(a.leaning.getD 0)))
    ∧ (∀ (h : HistoryState RawEntry) (p : Payload) (inner : RawInner)
        (ns : List Node), p.argument_map = some inner → inner.nodes = some ns →
        (handleSubmitCommit h p).1 =
          historyReducer h
            (.push ⟨p, sanitizeAnalysis p.moderator_analysis⟩)) := by
  constructor
  · intro a
    exact ⟨_, rfl, rfl⟩
  · intro h p inner ns h1 h2
    simp [handleSubmitCommit, h1, h2]

/-- Witness for claim C9's commit conjunct at a concrete payload. -/
theorem claim_C9_witness :
    (handleSubmitCommit initialRawHistory payloadBad).1 =
      historyReducer initialRawHistory (.push ⟨payloadBad, none⟩) := by
  have h := claim_C9.2 initialRawHistory payloadBad
    ⟨some "t", some "d",
      some [mkNode "n1" "claim" "Blue" none noMeta,
            mkNode "n1" "claim" "Blue" none noMeta],
      some [⟨"e9", "ghost", "n1", "supports"⟩]⟩
    [mkNode "n1" "claim" "Blue" none noMeta,
     mkNode "n1" "claim" "Blue" none noMeta] rfl rfl
  simpa using h

end ClaimLeaning

section ClaimSubmit

/-- Claim C3, counterexample: the payload `payloadBad` is malformed in the
claim's sense (its edge references the unknown node id `"ghost"` and its node
list has duplicate ids), yet the commit path accepts it: no validation error
is surfaced (`false`), the store is mutated, and a history entry holding the
malformed map is pushed. -/
theorem claim_C3_counterexample :
    (handleSubmitCommit initialRawHistory payloadBad).2 = false
    ∧ (handleSubmitCommit initialRawHistory payloadBad).1 ≠ initialRawHistory
    ∧ (handleSubmitCommit initialRawHistory payloadBad).1.entries.length = 2 := by
  decide

/-- Claim C3, amended: no payload validation exists. A payload whose
`argument_map` or whose `nodes` collection is missing is rejected as a side
effect of the `TypeError` thrown while tracking original texts (error
surfaced, history unchanged); every other payload — including ones with
edges referencing unknown node ids, duplicate ids, or a missing `edges`
collection — is committed unvalidated, pushing exactly one history entry
holding the payload. -/
theorem claim_C3_amended (h : HistoryState RawEntry) (p : Payload) :
    (p.argument_map = none → handleSubmitCommit h p = (h, true))
    ∧ (∀ inner : RawInner, p.argument_map = some inner → inner.nodes = none →
        handleSubmitCommit h p = (h, true))
    ∧ (∀ (inner : RawInner) (ns : List Node), p.argument_map = some inner →
        inner.nodes = some ns →
        handleSubmitCommit h p =
          (historyReducer h
            (.push ⟨p, sanitizeAnalysis p.moderator_analysis⟩), false)) := by
  refine ⟨?_, ?_, ?_⟩
  · intro h1
    simp [handleSubmitCommit, h1]
  · intro inner h1 h2
    simp [handleSubmitCommit, h1, h2]
  · intro inner ns h1 h2
    simp [handleSubmitCommit, h1, h2]

/-- Witness for claim C3's amended theorem: the missing-collections branch
and the commit branch, at concrete payloads. -/
theorem claim_C3_witness :
    handleSubmitCommit initialRawHistory ⟨none, none⟩ = (initialRawHistory, true)
    ∧ handleSubmitCommit initialRawHistory payloadBad =
        (historyReducer initialRawHistory (.push ⟨payloadBad, none⟩), false) := by
  constructor
  · exact (claim_C3_amended initialRawHistory ⟨none, none⟩).1 rfl
  · have h := (claim_C3_amended initialRawHistory payloadBad).2.2
      ⟨some "t", some "d",
        some [mkNode "n1" "claim" "Blue" none noMeta,
              mkNode "n1" "claim" "Blue" none noMeta],
        some [⟨"e9", "ghost", "n1", "supports"⟩]⟩
      [mkNode "n1" "claim" "Blue" none noMeta,
       mkNode "n1" "claim" "Blue" none noMeta] rfl rfl
    simpa using h

end ClaimSubmit

section ClaimRate

theorem ratePerNode_id (nodeId : String) (r : Rating) (s : String)
    (n : Node) : (ratePerNode nodeId r s n).id = n.id := by
  have hup : ∀ (n1 : Node),
      (if n1.rating = some Rating.up then
          { n1 with
            metadata := { n1.metadata with
              agreed_by := some ⟨s, none⟩ } }
        else
          { n1 with metadata := { n1.metadata with agreed_by := none } }).id
        = n1.id := by
    intro n1
    split <;> rfl
  unfold ratePerNode
  split
  · exact hup _
  · rfl

theorem ratePerNode_skip {nodeId : String} {r : Rating} {s : String}
    {n : Node} (h : n.id ≠ nodeId) : ratePerNode nodeId r s n = n := by
  unfold ratePerNode
  simp [h]

theorem handleRateMap_nodes (m : Wrapper) (nodeId : String) (r : Rating)
    (s : String) :
    (handleRateMap m nodeId r s).argument_map.nodes =
      m.argument_map.nodes.map (ratePerNode nodeId r s) := by
  unfold handleRateMap rateNode agreedByPass
  simp only [List.map_map]
  apply List.map_congr_left
  intro n _
  unfold ratePerNode
  by_cases hid : n.id = nodeId
  · simp [Function.comp_apply, hid]
  · simp [Function.comp_apply, hid]

/-- Claim C7, counterexample: on `cexC7` the node `n1` is already rated up,
so applying the "up" toggle twice leaves it rated up with `agreed_by` set —
not `rating = none` with `agreed_by` removed as the claim states for every
node. -/
theorem claim_C7_counterexample :
    ∃ n ∈ (handleRateMap (handleRateMap cexC7 "n1" Rating.up "Blue") "n1"
        Rating.up "Blue").argument_map.nodes,
      n.id = "n1" ∧ ¬ (n.rating = none ∧ n.metadata.agreed_by = none) := by
  decide

/-- Claim C7, amended: for every node whose current rating is not already
"up", toggling "up" twice returns it to `rating = none` with `agreed_by`
removed; toggling "up" then "down" leaves `rating = down` with no
`agreed_by` from any starting rating; and the two ratings are mutually
exclusive — a "down" toggle never leaves the node rated up and an "up"
toggle never leaves it rated down. -/
theorem claim_C7_amended (m : Wrapper) (nodeId s : String) :
    ((∀ n ∈ m.argument_map.nodes, n.id = nodeId → n.rating ≠ some Rating.up) →
      ∀ n ∈ (handleRateMap (handleRateMap m nodeId Rating.up s) nodeId
          Rating.up s).argument_map.nodes,
        n.id = nodeId → n.rating = none ∧ n.metadata.agreed_by = none)
    ∧ (∀ n ∈ (handleRateMap (handleRateMap m nodeId Rating.up s) nodeId
          Rating.down s).argument_map.nodes,
        n.id = nodeId → n.rating = some Rating.down ∧
          n.metadata.agreed_by = none)
    ∧ (∀ n ∈ (handleRateMap m nodeId Rating.down s).argument_map.nodes,
        n.id = nodeId → n.rating ≠ some Rating.up)
    ∧ (∀ n ∈ (handleRateMap m nodeId Rating.up s).argument_map.nodes,
        n.id = nodeId → n.rating ≠ some Rating.down) := by
  have key : ∀ (r1 r2 : Rating) (n : Node),
      (handleRateMap (handleRateMap m nodeId r1 s) nodeId r2 s).argument_map.nodes
        = m.argument_map.nodes.map
            (fun n => ratePerNode nodeId r2 s (ratePerNode nodeId r1 s n)) := by
    intro r1 r2 n
    rw [handleRateMap_nodes, handleRateMap_nodes, List.map_map]
    rfl
  refine ⟨?_, ?_, ?_, ?_⟩
  · intro hnotup n hn hid
    rw [key Rating.up Rating.up ⟨"", "", "", "", none, noMeta⟩] at hn
    obtain ⟨n0, hn0, rfl⟩ := List.mem_map.mp hn
    have hid0 : n0.id = nodeId := by
      rwa [ratePerNode_id, ratePerNode_id] at hid
    have hr0 : n0.rating ≠ some Rating.up := hnotup n0 hn0 hid0
    unfold ratePerNode
    rcases hr : n0.rating with _ | r0
    · simp [hid0, hr]
    · cases r0
      · exact absurd hr hr0
      · simp [hid0, hr]
  · intro n hn hid
    rw [key Rating.up Rating.down ⟨"", "", "", "", none, noMeta⟩] at hn
    obtain ⟨n0, hn0, rfl⟩ := List.mem_map.mp hn
    have hid0 : n0.id = nodeId := by
      rwa [ratePerNode_id, ratePerNode_id] at hid
    unfold ratePerNode
    rcases hr : n0.rating with _ | r0
    · simp [hid0, hr]
    · cases r0 <;> simp [hid0, hr]
  · intro n hn hid
    rw [handleRateMap_nodes] at hn
    obtain ⟨n0, hn0, rfl⟩ := List.mem_map.mp hn
    have hid0 : n0.id = nodeId := by rwa [ratePerNode_id] at hid
    unfold ratePerNode
    rcases hr : n0.rating with _ | r0
    · simp [hid0, hr]
    · cases r0 <;> simp [hid0, hr]
  · intro n hn hid
    rw [handleRateMap_nodes] at hn
    obtain ⟨n0, hn0, rfl⟩ := List.mem_map.mp hn
    have hid0 : n0.id = nodeId := by rwa [ratePerNode_id] at hid
    unfold ratePerNode
    rcases hr : n0.rating with _ | r0
    · simp [hid0, hr]
    · cases r0 <;> simp [hid0, hr]

/-- Witness for claim C7's amended theorem at a concrete map whose node is
not yet rated up: after the up-twice round trip, the (unique) node of the
result — the literal record below — has no rating and no `agreed_by`. -/
theorem claim_C7_witness :
    mkNode "n1" "claim" "Green" none noMeta ∈
      (handleRateMap (handleRateMap
        ⟨{ title := "", description := "",
           nodes := [mkNode "n1" "claim" "Green" none noMeta], edges := [] }⟩
        "n1" Rating.up "Blue") "n1" Rating.up "Blue").argument_map.nodes
    ∧ (mkNode "n1" "claim" "Green" none noMeta).rating = none
    ∧ (mkNode "n1" "claim" "Green" none noMeta).metadata.agreed_by = none := by
  refine ⟨by decide, ?_⟩
  exact (claim_C7_amended
    ⟨{ title := "", description := "",
       nodes := [mkNode "n1" "claim" "Green" none noMeta], edges := [] }⟩
    "n1" "Blue").1 (by decide)
    (mkNode "n1" "claim" "Green" none noMeta) (by decide) (by decide)

/-- Claim C8, counterexample: rating an unknown node id is not a no-op on
the observable engine state — App.jsx `handleRate` still pushes one history
entry, so the history grows and the index advances. -/
theorem claim_C8_counterexample :
    handleRate initialHistory "nope" Rating.up "Blue" ≠ initialHistory
    ∧ (handleRate initialHistory "nope" Rating.up "Blue").entries.length = 2 := by
  decide

theorem handleRateMap_unknown {m : Wrapper} {nodeId : String} {r : Rating}
    {s : String}
    (h : ∀ n ∈ m.argument_map.nodes, n.id ≠ nodeId) :
    handleRateMap m nodeId r s = m := by
  have hmap : m.argument_map.nodes.map (ratePerNode nodeId r s)
      = m.argument_map.nodes := by
    conv_rhs => rw [← List.map_id m.argument_map.nodes]
    apply List.map_congr_left
    intro n hn
    exact ratePerNode_skip (h n hn)
  have hshape : handleRateMap m nodeId r s =
      ⟨{ m.argument_map with
          nodes := m.argument_map.nodes.map (ratePerNode nodeId r s) }⟩ := by
    rw [← handleRateMap_nodes]
    rfl
  rw [hshape, hmap]

/-- Claim C8, amended: with an unknown node id the map value is unchanged
(`rateNode` maps every node to itself), but `handleRate` still pushes one
history entry containing the unchanged map and analysis: the index advances
while the displayed snapshot stays equal. -/
theorem claim_C8_amended (h : HistoryState Snapshot) (nodeId : String)
    (r : Rating) (s : String)
    (hunknown : ∀ n ∈ (currentEntry h).map.argument_map.nodes, n.id ≠ nodeId)
    (hwf : h.index < h.entries.length) :
    handleRate h nodeId r s =
      historyReducer h (.push (currentEntry h))
    ∧ (handleRate h nodeId r s).index = h.index + 1
    ∧ currentEntry (handleRate h nodeId r s) = currentEntry h := by
  have hmap : handleRateMap (currentEntry h).map nodeId r s =
      (currentEntry h).map := handleRateMap_unknown hunknown
  have hpush : handleRate h nodeId r s =
      historyReducer h (.push (currentEntry h)) := by
    unfold handleRate
    rw [hmap]
  refine ⟨hpush, ?_, ?_⟩
  · rw [hpush]
    rfl
  · rw [hpush]
    have hred : historyReducer h (.push (currentEntry h)) =
        ⟨h.entries.take (h.index + 1) ++ [currentEntry h], h.index + 1⟩ := rfl
    rw [hred]
    show (h.entries.take (h.index + 1) ++ [currentEntry h]).getD (h.index + 1)
        ⟨EMPTY_MAP, none⟩ = currentEntry h
    have hlen : (h.entries.take (h.index + 1)).length = h.index + 1 := by
      rw [List.length_take]
      omega
    rw [List.getD_append_right _ _ _ _ (le_of_eq hlen)]
    rw [hlen]
    simp


/-- Witness for claim C8's amended theorem: rating the unknown id `"nope"`
on the initial history advances the index while the displayed snapshot is
unchanged. -/
theorem claim_C8_witness :
    (handleRate initialHistory "nope" Rating.up "Blue").index =
      initialHistory.index + 1
    ∧ currentEntry (handleRate initialHistory "nope" Rating.up "Blue") =
        currentEntry initialHistory := by
  have h := claim_C8_amended initialHistory "nope" Rating.up "Blue"
    (by decide) (by decide)
  exact ⟨h.2.1, h.2.2⟩

/-- Claim C10: a rating toggle is frame-silent outside the targeted node —
the edge list, title and description are unchanged, the node list is a
position-preserving map of the per-node function, every node with a
different id is mapped to itself, and even on the targeted node only
`rating` and `metadata.agreed_by` can change (id, type, content, speaker and
all other metadata fields are preserved). -/
theorem claim_C10 (m : Wrapper) (nodeId : String) (r : Rating) (s : String) :
    (handleRateMap m nodeId r s).argument_map.edges = m.argument_map.edges
    ∧ (handleRateMap m nodeId r s).argument_map.title = m.argument_map.title
    ∧ (handleRateMap m nodeId r s).argument_map.description =
        m.argument_map.description
    ∧ (handleRateMap m nodeId r s).argument_map.nodes =
        m.argument_map.nodes.map (ratePerNode nodeId r s)
    ∧ (∀ n : Node, n.id ≠ nodeId → ratePerNode nodeId r s n = n)
    ∧ (∀ n : Node,
        (ratePerNode nodeId r s n).id = n.id
        ∧ (ratePerNode nodeId r s n).content = n.content
        ∧ (ratePerNode nodeId r s n).speaker = n.speaker
        ∧ (ratePerNode nodeId r s n).type = n.type
        ∧ (ratePerNode nodeId r s n).metadata.confidence =
            n.metadata.confidence
        ∧ (ratePerNode nodeId r s n).metadata.tags = n.metadata.tags
        ∧ (ratePerNode nodeId r s n).metadata.tactics = n.metadata.tactics
        ∧ (ratePerNode nodeId r s n).metadata.contradicts =
            n.metadata.contradicts
        ∧ (ratePerNode nodeId r s n).metadata.moves_goalposts_from =
            n.metadata.moves_goalposts_from) := by
  refine ⟨rfl, rfl, rfl, handleRateMap_nodes m nodeId r s, ?_, ?_⟩
  · intro n hn
    exact ratePerNode_skip hn
  · intro n
    unfold ratePerNode
    by_cases hid : n.id = nodeId
    · simp only [if_pos hid]
      cases r <;> rcases hnr : n.rating with _ | nr0 <;> (try cases nr0) <;>
        refine ⟨?_, ?_, ?_, ?_, ?_, ?_, ?_, ?_, ?_⟩ <;> simp [hid, hnr]
    · simp [hid]

/-- Witness for claim C10's frame theorem at a concrete map and node. -/
theorem claim_C10_witness :
    ratePerNode "n1" Rating.up "Blue" (mkNode "n2" "claim" "Green" none noMeta)
      = mkNode "n2" "claim" "Green" none noMeta := by
  exact (claim_C10 cexC7 "n1" Rating.up "Blue").2.2.2.2.1
    (mkNode "n2" "claim" "Green" none noMeta) (by decide)

end ClaimRate

section ClaimTree

theorem treeIdsList_optCons (o : Option TreeItem) (l : TreeList) :
    treeIdsList (optCons o l) = treeIdsOpt o ++ treeIdsList l := by
  cases o <;> rfl

/-- The placement invariants of `buildNode` / `buildChildren`, by one
simultaneous induction on fuel: the updated `placed` set is a permutation of
the built subtree's ids prepended to the old one, `Nodup` is preserved, and
every placed id is the id of some input node. -/
theorem buildNode_spec (nodes : List Node) (edges : List Edge) :
    ∀ (fuel : Nat),
      (∀ (nodeId : String) (tp : Option String) (placed : List String),
        ((buildNode nodes edges fuel nodeId tp placed).2).Perm
            (treeIdsOpt (buildNode nodes edges fuel nodeId tp placed).1 ++ placed)
        ∧ (placed.Nodup → ((buildNode nodes edges fuel nodeId tp placed).2).Nodup)
        ∧ (∀ x ∈ treeIdsOpt (buildNode nodes edges fuel nodeId tp placed).1,
            x ∈ nodes.map Node.id))
      ∧ (∀ (cids : List String) (parent : String) (placed : List String),
        ((buildChildren nodes edges fuel cids parent placed).2).Perm
            (treeIdsList (buildChildren nodes edges fuel cids parent placed).1
              ++ placed)
        ∧ (placed.Nodup →
            ((buildChildren nodes edges fuel cids parent placed).2).Nodup)
        ∧ (∀ x ∈ treeIdsList (buildChildren nodes edges fuel cids parent placed).1,
            x ∈ nodes.map Node.id)) := by
  intro fuel
  induction fuel with
  | zero =>
    constructor
    · intro nodeId tp placed
      refine ⟨?_, ?_, ?_⟩ <;> simp [buildNode, treeIdsOpt]
    · intro cids parent placed
      cases cids with
      | nil => refine ⟨?_, ?_, ?_⟩ <;> simp [buildChildren, treeIdsList]
      | cons c rest => refine ⟨?_, ?_, ?_⟩ <;> simp [buildChildren, treeIdsList]
  | succ f ih =>
    obtain ⟨ihN, ihC⟩ := ih
    constructor
    · intro nodeId tp placed
      cases hf : nodes.find? (fun n => n.id = nodeId) with
      | none =>
        refine ⟨?_, ?_, ?_⟩ <;> simp [buildNode, hf, treeIdsOpt]
      | some node =>
        by_cases hc : placed.contains nodeId
        · have hin : nodeId ∈ placed := by simpa using hc
          refine ⟨?_, ?_, ?_⟩ <;> simp [buildNode, hf, hc, hin, treeIdsOpt]
        · have hnotmem : nodeId ∉ placed := by simpa using hc
          have hred : buildNode nodes edges (f + 1) nodeId tp placed =
              (some (.mk node
                (((parentIdsOf edges node.id).filter
                  (fun p => !(some p == tp))).length)
                (buildChildren nodes edges f (childIdsOf edges nodeId) nodeId
                  (nodeId :: placed)).1),
               (buildChildren nodes edges f (childIdsOf edges nodeId) nodeId
                  (nodeId :: placed)).2) := by
            simp [buildNode, hf, hc, hnotmem]
          obtain ⟨hp, hnd, hu⟩ :=
            ihC (childIdsOf edges nodeId) nodeId (nodeId :: placed)
          have hid : node.id = nodeId := by
            have := List.find?_some hf
            simpa using this
          rw [hred]
          refine ⟨?_, ?_, ?_⟩
          · simp only [treeIdsOpt, treeIdsItem, hid]
            exact hp.trans List.perm_middle
          · intro hplnd
            exact hnd (List.nodup_cons.mpr ⟨hnotmem, hplnd⟩)
          · intro x hx
            simp only [treeIdsOpt, treeIdsItem, List.mem_cons] at hx
            rcases hx with rfl | hx
            · exact List.mem_map.mpr ⟨node, List.mem_of_find?_eq_some hf, rfl⟩
            · exact hu x hx
    · intro cids parent placed
      cases cids with
      | nil => refine ⟨?_, ?_, ?_⟩ <;> simp [buildChildren, treeIdsList]
      | cons c rest =>
        have hred : buildChildren nodes edges (f + 1) (c :: rest) parent placed =
            (optCons (buildNode nodes edges f c (some parent) placed).1
               (buildChildren nodes edges f rest parent
                 (buildNode nodes edges f c (some parent) placed).2).1,
             (buildChildren nodes edges f rest parent
                 (buildNode nodes edges f c (some parent) placed).2).2) := by
          simp [buildChildren]
        obtain ⟨hp1, hnd1, hu1⟩ := ihN c (some parent) placed
        obtain ⟨hp2, hnd2, hu2⟩ :=
          ihC rest parent ((buildNode nodes edges f c (some parent) placed).2)
        rw [hred]
        refine ⟨?_, ?_, ?_⟩
        · rw [treeIdsList_optCons]
          refine hp2.trans ?_
          refine (List.Perm.append_left _ hp1).trans ?_
          rw [← List.append_assoc]
          exact List.Perm.append_right _ List.perm_append_comm
        · intro hnd
          exact hnd2 (hnd1 hnd)
        · intro x hx
          rw [treeIdsList_optCons, List.mem_append] at hx
          rcases hx with hx | hx
          · exact hu1 x hx
          · exact hu2 x hx

theorem buildNode_mono (nodes : List Node) (edges : List Edge) (fuel : Nat)
    (nodeId : String) (tp : Option String) (placed : List String) :
    placed ⊆ (buildNode nodes edges fuel nodeId tp placed).2 := by
  intro x hx
  have hp := ((buildNode_spec nodes edges fuel).1 nodeId tp placed).1
  exact hp.mem_iff.mpr (List.mem_append_right _ hx)

theorem buildChildren_mono (nodes : List Node) (edges : List Edge) (fuel : Nat)
    (cids : List String) (parent : String) (placed : List String) :
    placed ⊆ (buildChildren nodes edges fuel cids parent placed).2 := by
  intro x hx
  have hp := ((buildNode_spec nodes edges fuel).2 cids parent placed).1
  exact hp.mem_iff.mpr (List.mem_append_right _ hx)

/-- Any id of an input node is in the `placed` set after `buildNode` runs on
it with at least one unit of fuel. -/
theorem buildNode_places (nodes : List Node) (edges : List Edge) (f : Nat)
    (nodeId : String) (tp : Option String) (placed : List String)
    (hmem : nodeId ∈ nodes.map Node.id) :
    nodeId ∈ (buildNode nodes edges (f + 1) nodeId tp placed).2 := by
  cases hf : nodes.find? (fun n => n.id = nodeId) with
  | none =>
    exfalso
    rw [List.find?_eq_none] at hf
    obtain ⟨n, hn, hid⟩ := List.mem_map.mp hmem
    exact hf n hn (by simp [hid])
  | some node =>
    by_cases hc : placed.contains nodeId
    · have hin : nodeId ∈ placed := by simpa using hc
      simp [buildNode, hf, hc, hin]
    · have hnotmem : nodeId ∉ placed := by simpa using hc
      have hmono := buildChildren_mono nodes edges f (childIdsOf edges nodeId)
        nodeId (nodeId :: placed)
      have hin : nodeId ∈ (buildChildren nodes edges f (childIdsOf edges nodeId)
          nodeId (nodeId :: placed)).2 := hmono (List.mem_cons_self _ _)
      simpa [buildNode, hf, hc, hnotmem] using hin

theorem forestIds_append (a b : List TreeItem) :
    forestIds (a ++ b) = forestIds a ++ forestIds b := by
  simp [forestIds]

theorem forestIds_toList (o : Option TreeItem) :
    forestIds o.toList = treeIdsOpt o := by
  cases o <;> simp [forestIds, treeIdsOpt, Option.toList]

/-- The placement invariants of a `buildForest` sweep. -/
theorem buildForest_spec (nodes : List Node) (edges : List Edge) (fuel : Nat) :
    ∀ (ids : List String) (placed : List String),
      ((buildForest nodes edges fuel ids placed).2).Perm
          (forestIds (buildForest nodes edges fuel ids placed).1 ++ placed)
      ∧ (placed.Nodup → ((buildForest nodes edges fuel ids placed).2).Nodup)
      ∧ (∀ x ∈ forestIds (buildForest nodes edges fuel ids placed).1,
          x ∈ nodes.map Node.id) := by
  intro ids
  induction ids with
  | nil =>
    intro placed
    refine ⟨?_, ?_, ?_⟩ <;> simp [buildForest, forestIds]
  | cons i rest ihr =>
    intro placed
    have hred : buildForest nodes edges fuel (i :: rest) placed =
        ((buildNode nodes edges fuel i none placed).1.toList ++
           (buildForest nodes edges fuel rest
             (buildNode nodes edges fuel i none placed).2).1,
         (buildForest nodes edges fuel rest
             (buildNode nodes edges fuel i none placed).2).2) := by
      simp [buildForest]
    obtain ⟨hp1, hnd1, hu1⟩ := (buildNode_spec nodes edges fuel).1 i none placed
    obtain ⟨hp2, hnd2, hu2⟩ :=
      ihr ((buildNode nodes edges fuel i none placed).2)
    rw [hred]
    refine ⟨?_, ?_, ?_⟩
    · rw [forestIds_append, forestIds_toList]
      refine hp2.trans ?_
      refine (List.Perm.append_left _ hp1).trans ?_
      rw [← List.append_assoc]
      exact List.Perm.append_right _ List.perm_append_comm
    · intro hnd
      exact hnd2 (hnd1 hnd)
    · intro x hx
      rw [forestIds_append, forestIds_toList, List.mem_append] at hx
      rcases hx with hx | hx
      · exact hu1 x hx
      · exact hu2 x hx

theorem buildForest_mono (nodes : List Node) (edges : List Edge) (fuel : Nat)
    (ids : List String) (placed : List String) :
    placed ⊆ (buildForest nodes edges fuel ids placed).2 := by
  intro x hx
  have hp := (buildForest_spec nodes edges fuel ids placed).1
  exact hp.mem_iff.mpr (List.mem_append_right _ hx)

/-- After a sweep over an id list, every swept id that names an input node is
placed. -/
theorem buildForest_places (nodes : List Node) (edges : List Edge) (f : Nat) :
    ∀ (ids placed : List String) (x : String), x ∈ ids →
      x ∈ nodes.map Node.id →
      x ∈ (buildForest nodes edges (f + 1) ids placed).2 := by
  intro ids
  induction ids with
  | nil =>
    intro placed x hx
    simp at hx
  | cons i rest ihr =>
    intro placed x hx hxn
    have hred : buildForest nodes edges (f + 1) (i :: rest) placed =
        ((buildNode nodes edges (f + 1) i none placed).1.toList ++
           (buildForest nodes edges (f + 1) rest
             (buildNode nodes edges (f + 1) i none placed).2).1,
         (buildForest nodes edges (f + 1) rest
             (buildNode nodes edges (f + 1) i none placed).2).2) := by
      simp [buildForest]
    rcases List.mem_cons.mp hx with rfl | hx'
    · have h1 := buildNode_places nodes edges f x none placed hxn
      have hmono := buildForest_mono nodes edges (f + 1) rest
        ((buildNode nodes edges (f + 1) x none placed).2)
      rw [hred]
      exact hmono h1
    · rw [hred]
      exact ihr _ x hx' hxn

mutual

theorem countDescendants_eq_length : ∀ (l : TreeList),
    countDescendants l = (treeIdsList l).length
  | .nil => rfl
  | .cons t rest => by
    rw [show countDescendants (.cons t rest) =
        (1 + countDescItem t) + countDescendants rest from rfl]
    rw [show treeIdsList (.cons t rest) =
        treeIdsItem t ++ treeIdsList rest from rfl]
    rw [List.length_append, countDescItem_eq_length t,
      countDescendants_eq_length rest]

theorem countDescItem_eq_length : ∀ (t : TreeItem),
    1 + countDescItem t = (treeIdsItem t).length
  | .mk n c children => by
    rw [show countDescItem (.mk n c children) = countDescendants children
      from rfl]
    rw [show treeIdsItem (.mk n c children) = n.id :: treeIdsList children
      from rfl]
    rw [List.length_cons, countDescendants_eq_length children]
    omega

end

theorem sum_one_add_countDescendants (ts : List TreeItem) :
    (ts.map (fun t => 1 + countDescendants t.children)).sum =
      (forestIds ts).length := by
  induction ts with
  | nil => rfl
  | cons t rest ih =>
    cases t with
    | mk n c children =>
      simp only [List.map_cons, List.sum_cons, forestIds, List.flatMap_cons,
        List.length_append] at ih ⊢
      rw [show TreeItem.children (.mk n c children) = children from rfl]
      rw [show treeIdsItem (.mk n c children) = n.id :: treeIdsList children
        from rfl]
      rw [List.length_cons, countDescendants_eq_length children, ih]
      omega

/-- Claim C6: the spanning-tree projection is total. For every input whose
node ids are distinct (the data model's id-uniqueness invariant), every input
node id appears exactly once across the resulting forest — nodes unreachable
from any root are placed as their own roots by the final sweep — and
`Σ (1 + descendantCount)` over the top-level entries equals the number of
input nodes. -/
theorem claim_C6 (nodes : List Node) (edges : List Edge)
    (hnd : (nodes.map Node.id).Nodup) :
    (∀ i ∈ nodes.map Node.id, (forestIds (buildTree nodes edges)).count i = 1)
    ∧ ((buildTree nodes edges).map
        (fun t => 1 + countDescendants t.children)).sum = nodes.length := by
  have hbt : buildTree nodes edges =
      (buildForest nodes edges (nodes.length + edges.length + 1)
        ((nodes.filter (fun n =>
          !((edges.map (fun e => e.«from»)).contains n.id))).map
            (fun n => n.id)) []).1
      ++ (buildForest nodes edges (nodes.length + edges.length + 1)
        (nodes.map (fun n => n.id))
        (buildForest nodes edges (nodes.length + edges.length + 1)
          ((nodes.filter (fun n =>
            !((edges.map (fun e => e.«from»)).contains n.id))).map
              (fun n => n.id)) []).2).1 := rfl
  obtain ⟨hp1, hnd1, hu1⟩ := buildForest_spec nodes edges
    (nodes.length + edges.length + 1)
    ((nodes.filter (fun n =>
      !((edges.map (fun e => e.«from»)).contains n.id))).map (fun n => n.id)) []
  obtain ⟨hp2, hnd2, hu2⟩ := buildForest_spec nodes edges
    (nodes.length + edges.length + 1) (nodes.map (fun n => n.id))
    (buildForest nodes edges (nodes.length + edges.length + 1)
      ((nodes.filter (fun n =>
        !((edges.map (fun e => e.«from»)).contains n.id))).map
          (fun n => n.id)) []).2
  rw [List.append_nil] at hp1
  have hmapid : nodes.map (fun n => n.id) = nodes.map Node.id := rfl
  -- the final placed set is a permutation of the whole forest's ids
  have hperm2 := hp2.trans (List.Perm.append_left _ hp1)
  -- it has no duplicates
  have hnodup2 := hnd2 (hnd1 List.nodup_nil)
  -- it contains only input node ids
  have hsub : (buildForest nodes edges (nodes.length + edges.length + 1)
      (nodes.map (fun n => n.id))
      (buildForest nodes edges (nodes.length + edges.length + 1)
        ((nodes.filter (fun n =>
          !((edges.map (fun e => e.«from»)).contains n.id))).map
            (fun n => n.id)) []).2).2 ⊆ nodes.map Node.id := by
    intro x hx
    have hx2 := hperm2.mem_iff.mp hx
    rw [List.mem_append] at hx2
    rcases hx2 with hx2 | hx2
    · exact hu2 x hx2
    · exact hu1 x hx2
  -- it contains every input node id (the second sweep runs over all of them)
  have hsup : nodes.map Node.id ⊆
      (buildForest nodes edges (nodes.length + edges.length + 1)
        (nodes.map (fun n => n.id))
        (buildForest nodes edges (nodes.length + edges.length + 1)
          ((nodes.filter (fun n =>
            !((edges.map (fun e => e.«from»)).contains n.id))).map
              (fun n => n.id)) []).2).2 := by
    intro x hx
    exact buildForest_places nodes edges (nodes.length + edges.length)
      (nodes.map (fun n => n.id)) _ x (by rw [hmapid]; exact hx) hx
  have hpermN := (hnodup2.subperm hsub).antisymm (hnd.subperm hsup)
  -- the forest's ids are a permutation of the input ids
  have hforest : (forestIds (buildTree nodes edges)).Perm (nodes.map Node.id) := by
    rw [hbt, forestIds_append]
    exact (List.perm_append_comm.trans hperm2.symm).trans hpermN
  constructor
  · intro i hi
    rw [hforest.count_eq]
    exact List.count_eq_one_of_mem hnd hi
  · rw [sum_one_add_countDescendants, hforest.length_eq, List.length_map]

/-- Witness for claim C6 on a concrete cyclic fixture (`a → b → a`): neither
node is a root, both are placed by the final sweep, each id appears once and
the descendant sum equals the node count. -/
theorem claim_C6_witness :
    ((buildTree fixC6nodes fixC6edges).map
      (fun t => 1 + countDescendants t.children)).sum = 2
    ∧ (forestIds (buildTree fixC6nodes fixC6edges)).count "a" = 1 := by
  have h := claim_C6 fixC6nodes fixC6edges (by decide)
  constructor
  · simpa using h.2
  · exact h.1 "a" (by decide)

end ClaimTree

end ArgMapper
